import Mathlib

/-!
Shallow embedding of the digest (read-side index) layer of the
mitum-data-blocksign repository, together with proofs about its
specification claims.

The embedding follows the Go sources:
  * `src/digest/database.go`  — offset cursor parsing/building, the
    derived store (five collections + last-digested-height marker),
    `SetLastBlock`, `Clean`, `CleanByHeight`, the operation scans;
  * `src/digest/digest.go`    — `DigestBlock`;
  * `src/unnamed/part_003`    — the account-operations HTTP handler,
    HAL-link building and the cache-TTL policy;
  * `src/unnamed/part_002`    — the error → HTTP status mapping.

Machine integers (`int64`, `uint64`) are embedded as `Int`/`Nat` with
explicit range conditions where the Go code's overflow checks matter.
-/

namespace Blocksign

/-! ## Decimal formatting and parsing

`buildOffset` uses Go's `fmt.Sprintf("%d,%d", height, index)` and
`parseOffset` uses `strconv.ParseInt`/`strconv.ParseUint` (base 10,
bit size 64).  We embed those standard-library routines faithfully:
`%d` prints the decimal digits (most significant first) with a leading
`'-'` for negative values; `ParseUint` accepts a non-empty all-digit
string whose value fits in 64 bits; `ParseInt` additionally accepts a
leading sign and checks the signed 64-bit range. -/

/-- Value of a decimal digit character, `none` if not `'0'..'9'`
(Go's per-character check inside `strconv.ParseUint`). -/
def digitVal (c : Char) : Option Nat :=
  if 48 ≤ c.toNat ∧ c.toNat ≤ 57 then some (c.toNat - 48) else none

/-- Little-endian decimal digits of `n`, computed with explicit fuel so
that the definition reduces in the kernel; with `fuel ≥ n` it agrees
with `Nat.digits 10 n`. -/
def decDigitsAux : Nat → Nat → List Nat
  | _, 0 => []
  | 0, _ => []
  | fuel + 1, n => n % 10 :: decDigitsAux fuel (n / 10)

/-- Decimal digits of `n`, most significant first (`fmt` prints `0` as `"0"`). -/
def natDecDigits (n : Nat) : List Nat :=
  if n = 0 then [0] else (decDigitsAux n n).reverse

/-- Character for a decimal digit value. -/
def digitChar (d : Nat) : Char := Char.ofNat (48 + d)

/-- Embedding of Go `fmt.Sprintf("%d", n)` for an unsigned integer. -/
def formatNat (n : Nat) : List Char := (natDecDigits n).map digitChar

/-- Embedding of Go `fmt.Sprintf("%d", i)` for a signed integer. -/
def formatInt (i : Int) : List Char :=
  if i < 0 then '-' :: formatNat i.natAbs else formatNat i.natAbs

/-- One step of `strconv`'s base-10 accumulation. -/
def decAccum : Option Nat → Char → Option Nat
  | none, _ => none
  | some a, c =>
    match digitVal c with
    | none => none
    | some d => some (10 * a + d)

/-- Parse a non-empty all-digit string to its value
(the digit-accumulation loop of `strconv.ParseUint`). -/
def parseDigits (cs : List Char) : Option Nat :=
  if cs.isEmpty then none else cs.foldl decAccum (some 0)

/-- Embedding of Go `strconv.ParseUint(s, 10, 64)`: the digit loop plus
the unsigned 64-bit overflow check. -/
def goParseUint64 (cs : List Char) : Option Nat :=
  match parseDigits cs with
  | none => none
  | some n => if n < 2 ^ 64 then some n else none

/-- Digit loop and signed 64-bit cutoff of Go `strconv.ParseInt`
(`2^63` for negative values, `2^63 - 1` for non-negative values). -/
def goParseInt64Core (neg : Bool) (ds : List Char) : Option Int :=
  match parseDigits ds with
  | none => none
  | some n =>
    if neg then (if n ≤ 2 ^ 63 then some (-(n : Int)) else none)
    else (if n < 2 ^ 63 then some (n : Int) else none)

/-- Embedding of Go `strconv.ParseInt(s, 10, 64)`: optional sign, digit
loop, signed 64-bit cutoff. -/
def goParseInt64 (cs : List Char) : Option Int :=
  match cs with
  | [] => none
  | c :: rest =>
    if c = '-' then goParseInt64Core true rest
    else if c = '+' then goParseInt64Core false rest
    else goParseInt64Core false (c :: rest)

/-- Embedding of Go `strings.SplitN(s, ",", 2)`: everything before the
first comma, and — when a comma exists — everything after it. -/
def splitFirstComma : List Char → List Char × Option (List Char)
  | [] => ([], none)
  | c :: rest =>
    if c = ',' then ([], some rest)
    else
      let p := splitFirstComma rest
      (c :: p.1, p.2)

/-! ## Heights

`base.Height` of the external `spikeekips/mitum` library is an `int64`;
`base.NilHeight` and `base.PreGenesisHeight` are its sentinels below the
genesis height `0`; heights are embedded as plain `Int`. -/

/-- `base.NilHeight` sentinel of the external mitum library. -/
def NilHeight : Int := -1

/-- `base.PreGenesisHeight` sentinel of the external mitum library. -/
def PreGenesisHeight : Int := -1

/-- Embedding of `base.NewHeightFromString` (external mitum library):
`strconv.ParseInt(s, 10, 64)` converted to a `Height`. -/
def NewHeightFromString (cs : List Char) : Option Int := goParseInt64 cs

/-! ## `parseOffset` / `buildOffset` (src/digest/database.go:620-636) -/

/-- `parseOffset` (src/digest/database.go:620): split on the first comma
(`strings.SplitN(s, ",", 2)`); fail when there is no comma; parse the
first part as a height and the second as an unsigned 64-bit index. -/
def parseOffset (s : String) : Option (Int × Nat) :=
  match splitFirstComma s.data with
  | (_, none) => none
  | (a, some b) =>
    match NewHeightFromString a with
    | none => none
    | some h =>
      match goParseUint64 b with
      | none => none
      | some u => some (h, u)

/-- `buildOffset` (src/digest/database.go:634):
`fmt.Sprintf("%d,%d", height, index)`. -/
def buildOffset (height : Int) (index : Nat) : String :=
  ⟨formatInt height ++ ',' :: formatNat index⟩

/-! ### Round-trip lemmas for the decimal embedding -/

theorem decDigitsAux_eq : ∀ fuel n : Nat, n ≤ fuel → decDigitsAux fuel n = Nat.digits 10 n := by
  intro fuel
  induction fuel with
  | zero =>
    intro n h
    interval_cases n
    simp [decDigitsAux]
  | succ fuel ih =>
    intro n h
    match n with
    | 0 => simp [decDigitsAux]
    | n + 1 =>
      rw [show decDigitsAux (fuel + 1) (n + 1)
            = (n + 1) % 10 :: decDigitsAux fuel ((n + 1) / 10) from rfl,
        ih ((n + 1) / 10) (by omega),
        Nat.digits_def' (b := 10) (by norm_num) (Nat.succ_pos n)]

theorem natDecDigits_eq (n : Nat) :
    natDecDigits n = if n = 0 then [0] else (Nat.digits 10 n).reverse := by
  unfold natDecDigits
  rcases Nat.eq_zero_or_pos n with h | h
  · simp [h]
  · rw [decDigitsAux_eq n n le_rfl]

theorem natDecDigits_lt_ten (n : Nat) : ∀ d ∈ natDecDigits n, d < 10 := by
  intro d hd
  rw [natDecDigits_eq] at hd
  rcases Nat.eq_zero_or_pos n with h | h
  · simp [h] at hd; omega
  · rw [if_neg (by omega), List.mem_reverse] at hd
    exact Nat.digits_lt_base (by norm_num) hd

theorem digitChar_toNat {d : Nat} (h : d < 10) : (digitChar d).toNat = 48 + d := by
  interval_cases d <;> rfl

theorem digitVal_digitChar {d : Nat} (h : d < 10) : digitVal (digitChar d) = some d := by
  rw [digitVal, if_pos (by rw [digitChar_toNat h]; omega), digitChar_toNat h]
  congr 1
  omega

theorem foldl_decAccum_map (L : List Nat) (hL : ∀ d ∈ L, d < 10) :
    ∀ a : Nat, (L.map digitChar).foldl decAccum (some a)
      = some (L.foldl (fun a d => 10 * a + d) a) := by
  induction L with
  | nil => intro a; rfl
  | cons d L ih =>
    intro a
    have hd : d < 10 := hL d (by simp)
    simp only [List.map_cons, List.foldl_cons]
    rw [show decAccum (some a) (digitChar d) = some (10 * a + d) by
      rw [decAccum, digitVal_digitChar hd]]
    exact ih (fun x hx => hL x (by simp [hx])) (10 * a + d)

theorem foldl_mul_add_reverse (L : List Nat) :
    ∀ a : Nat, L.reverse.foldl (fun a d => 10 * a + d) a
      = a * 10 ^ L.length + Nat.ofDigits 10 L := by
  induction L with
  | nil => intro a; simp [Nat.ofDigits_nil]
  | cons d L ih =>
    intro a
    rw [List.reverse_cons, List.foldl_append, ih a, List.foldl_cons, List.foldl_nil,
      Nat.ofDigits_cons, List.length_cons, pow_succ]
    ring

theorem formatNat_ne_nil (n : Nat) : formatNat n ≠ [] := by
  rw [formatNat, natDecDigits_eq]
  rcases Nat.eq_zero_or_pos n with h | h
  · simp [h]
  · rw [if_neg (by omega)]
    simp only [ne_eq, List.map_eq_nil_iff, List.reverse_eq_nil_iff,
      Nat.digits_ne_nil_iff_ne_zero]
    omega

theorem parseDigits_formatNat (n : Nat) : parseDigits (formatNat n) = some n := by
  rw [parseDigits, if_neg (by simpa using formatNat_ne_nil n), formatNat,
    foldl_decAccum_map _ (natDecDigits_lt_ten n), natDecDigits_eq]
  rcases Nat.eq_zero_or_pos n with h | h
  · simp [h]
  · rw [if_neg (by omega), foldl_mul_add_reverse, Nat.ofDigits_digits, zero_mul, zero_add]

theorem goParseUint64_formatNat {n : Nat} (h : n < 2 ^ 64) :
    goParseUint64 (formatNat n) = some n := by
  simp only [goParseUint64, parseDigits_formatNat]
  rw [if_pos h]

theorem mem_formatNat_digit {n : Nat} {c : Char} (hc : c ∈ formatNat n) :
    48 ≤ c.toNat ∧ c.toNat ≤ 57 := by
  rw [formatNat, List.mem_map] at hc
  obtain ⟨d, hd, rfl⟩ := hc
  have := natDecDigits_lt_ten n d hd
  rw [digitChar_toNat this]
  omega

theorem goParseInt64Core_formatNat_neg {n : Nat} (h : n ≤ 2 ^ 63) :
    goParseInt64Core true (formatNat n) = some (-(n : Int)) := by
  simp only [goParseInt64Core, parseDigits_formatNat, if_true]
  rw [if_pos h]

theorem goParseInt64Core_formatNat_pos {n : Nat} (h : n < 2 ^ 63) :
    goParseInt64Core false (formatNat n) = some (n : Int) := by
  simp only [goParseInt64Core, parseDigits_formatNat, Bool.false_eq_true, if_false]
  rw [if_pos h]

theorem goParseInt64_formatInt {i : Int} (h1 : -(2 ^ 63) ≤ i) (h2 : i < 2 ^ 63) :
    goParseInt64 (formatInt i) = some i := by
  rcases lt_or_le i 0 with hneg | hpos
  · rw [formatInt, if_pos hneg, goParseInt64, if_pos rfl,
      goParseInt64Core_formatNat_neg (by omega : i.natAbs ≤ 2 ^ 63)]
    congr 1
    omega
  · rw [formatInt, if_neg (by omega)]
    obtain ⟨c, cs, hcs⟩ := List.exists_cons_of_ne_nil (formatNat_ne_nil i.natAbs)
    have hdig : 48 ≤ c.toNat ∧ c.toNat ≤ 57 :=
      mem_formatNat_digit (n := i.natAbs) (by rw [hcs]; simp)
    have hne1 : c ≠ '-' := by
      intro h; rw [h] at hdig; revert hdig; decide
    have hne2 : c ≠ '+' := by
      intro h; rw [h] at hdig; revert hdig; decide
    rw [hcs, goParseInt64, if_neg hne1, if_neg hne2, ← hcs,
      goParseInt64Core_formatNat_pos (by omega : i.natAbs < 2 ^ 63)]
    congr 1
    omega

theorem splitFirstComma_append {a : List Char} (b : List Char)
    (ha : ∀ c ∈ a, c ≠ ',') :
    splitFirstComma (a ++ ',' :: b) = (a, some b) := by
  induction a with
  | nil => simp [splitFirstComma]
  | cons c a ih =>
    have hc : c ≠ ',' := ha c (by simp)
    rw [List.cons_append, splitFirstComma, if_neg hc,
      ih (fun x hx => ha x (by simp [hx]))]

theorem mem_formatInt_ne_comma {i : Int} {c : Char} (hc : c ∈ formatInt i) : c ≠ ',' := by
  have : c = '-' ∨ (48 ≤ c.toNat ∧ c.toNat ≤ 57) := by
    rw [formatInt] at hc
    split at hc
    · rcases List.mem_cons.mp hc with h | h
      · exact Or.inl h
      · exact Or.inr (mem_formatNat_digit h)
    · exact Or.inr (mem_formatNat_digit hc)
  intro heq
  rcases this with h | h
  · rw [heq] at h; exact absurd h (by decide)
  · rw [heq] at h; revert h; decide

/-- C1: for every valid height `h` (a signed 64-bit integer) and every
non-negative 64-bit index `i`, `parseOffset (buildOffset h i)` succeeds
and returns exactly `(h, i)`. -/
theorem parseOffset_buildOffset (h : Int) (i : Nat)
    (hlo : -(2 ^ 63) ≤ h) (hhi : h < 2 ^ 63) (hi : i < 2 ^ 64) :
    parseOffset (buildOffset h i) = some (h, i) := by
  rw [parseOffset, buildOffset]
  rw [show (String.mk (formatInt h ++ ',' :: formatNat i)).data
        = formatInt h ++ ',' :: formatNat i from rfl,
    splitFirstComma_append (formatNat i) (fun c hc => mem_formatInt_ne_comma hc)]
  simp only [NewHeightFromString, goParseInt64_formatInt hlo hhi,
    goParseUint64_formatNat hi]

/-- Witness for C1 at the concrete offset `(-7, 12)`. -/
theorem parseOffset_buildOffset_witness :
    parseOffset (buildOffset (-7) 12) = some (-7, 12) :=
  parseOffset_buildOffset (-7) 12 (by decide) (by decide) (by decide)

/-! ## The operations collection and its scans
(src/digest/database.go:276-428, 638-666)

A document of the `digest_op` collection carries a height, the per-block
`index`, the list of related address keys (the Go code stores
`currency.StateAddressKeyPrefix(address)` strings; we model address keys
directly as strings) and the fact hash (modelled as a number). -/

/-- One document of the `digest_op` operations collection. -/
structure OpRecord where
  height : Int
  index : Nat
  addresses : List String
  fact : Nat
  deriving DecidableEq, Repr

/-- `maxLimit` (src/digest/database.go:27). -/
def maxLimit : Int := 50

/-- `buildOperationsFilterByAddress` (src/digest/database.go:638):
the bson filter `{addresses: {$in: [address]}}`, extended — when an
offset string is given — with
`$or: [{height: {$gt h}}, {$and: [{height: h}, {index: {$gt i}}]}]`
(`$lt` in both places for a reverse scan); fails when the offset string
does not parse.  The returned predicate is the Mongo evaluation of that
filter document on one record. -/
def buildOperationsFilterByAddress (address : String) (offset : String)
    (reverse : Bool) : Option (OpRecord → Bool) :=
  if offset.length = 0 then
    some (fun r => r.addresses.contains address)
  else
    match parseOffset offset with
    | none => none
    | some (h, i) =>
      if reverse then
        some (fun r => r.addresses.contains address &&
          (decide (r.height < h) || (decide (r.height = h) && decide (r.index < i))))
      else
        some (fun r => r.addresses.contains address &&
          (decide (h < r.height) || (decide (r.height = h) && decide (i < r.index))))

/-- The ascending sort order `height ASC, index ASC` set by
`util.NewBSONFilter("height", 1).Add("index", 1)`. -/
def opAsc (a b : OpRecord) : Prop :=
  a.height < b.height ∨ (a.height = b.height ∧ a.index ≤ b.index)

/-- The descending sort order `height DESC, index DESC` (`sr = -1`). -/
def opDesc (a b : OpRecord) : Prop :=
  b.height < a.height ∨ (b.height = a.height ∧ b.index ≤ a.index)

instance : DecidableRel opAsc := fun a b => by unfold opAsc; exact inferInstance

instance : DecidableRel opDesc := fun a b => by unfold opDesc; exact inferInstance

instance : IsTotal OpRecord opAsc := ⟨fun a b => by simp only [opAsc]; omega⟩

instance : IsTrans OpRecord opAsc := ⟨fun a b c => by simp only [opAsc]; omega⟩

instance : IsTotal OpRecord opDesc := ⟨fun a b => by simp only [opDesc]; omega⟩

instance : IsTrans OpRecord opDesc := ⟨fun a b c => by simp only [opDesc]; omega⟩

/-- The Mongo sort applied by the operation scans: `(height, index)`
ascending when `sr = 1`, descending when `sr = -1` (`reverse`). -/
def mongoSort (reverse : Bool) (l : List OpRecord) : List OpRecord :=
  if reverse then l.insertionSort opDesc else l.insertionSort opAsc

/-- The limit switch shared by `OperationsByAddress` and `Operations`
(src/digest/database.go:305-311, 395-401): `limit <= 0` means no limit,
`limit > maxLimit` is clamped to `maxLimit`, otherwise `limit` is used. -/
def applyLimit (limit : Int) (l : List OpRecord) : List OpRecord :=
  if limit ≤ 0 then l
  else if maxLimit < limit then l.take maxLimit.toNat
  else l.take limit.toNat

/-- `OperationsByAddress` (src/digest/database.go:283): builds the
address/offset filter, sorts by `(height, index)` in scan direction,
applies the limit switch, and feeds each record to the callback in
order; the result models the record sequence delivered to an
always-continuing callback.  `none` models the error return on a bad
offset string. -/
def OperationsByAddress (coll : List OpRecord) (address : String)
    (reverse : Bool) (offset : String) (limit : Int) : Option (List OpRecord) :=
  match buildOperationsFilterByAddress address offset reverse with
  | none => none
  | some filt => some (applyLimit limit (mongoSort reverse (coll.filter filt)))

/-- `Operations` (src/digest/database.go:379): the same scan machinery
parameterised by an arbitrary filter. -/
def Operations (coll : List OpRecord) (filt : OpRecord → Bool)
    (reverse : Bool) (limit : Int) : List OpRecord :=
  applyLimit limit (mongoSort reverse (coll.filter filt))

/-- C4: for an offset parsing to `(h, i)`, an unlimited forward
`OperationsByAddress` scan visits exactly the records of the address
with `height > h`, or `height = h` and `index > i`, in ascending
`(height, index)` order, and a reverse scan visits exactly the records
with `height < h`, or `height = h` and `index < i`, in descending
`(height, index)` order; ties at equal height are broken by index only. -/
theorem operationsByAddress_cursor_semantics
    (coll : List OpRecord) (address offset : String) (h : Int) (i : Nat)
    (hoff : parseOffset offset = some (h, i)) (hlen : offset.length ≠ 0) :
    ∃ fwd rev : List OpRecord,
      OperationsByAddress coll address false offset 0 = some fwd ∧
      OperationsByAddress coll address true offset 0 = some rev ∧
      (∀ r : OpRecord, r ∈ fwd ↔ r ∈ coll ∧ address ∈ r.addresses ∧
        (h < r.height ∨ (r.height = h ∧ i < r.index))) ∧
      fwd.Sorted opAsc ∧
      (∀ r : OpRecord, r ∈ rev ↔ r ∈ coll ∧ address ∈ r.addresses ∧
        (r.height < h ∨ (r.height = h ∧ r.index < i))) ∧
      rev.Sorted opDesc := by
  have happ : ∀ l : List OpRecord, applyLimit 0 l = l := by
    intro l; rw [applyLimit, if_pos (by omega)]
  have hF : OperationsByAddress coll address false offset 0
      = some ((coll.filter (fun r => r.addresses.contains address &&
          (decide (h < r.height) || (decide (r.height = h) && decide (i < r.index))))
        ).insertionSort opAsc) := by
    rw [OperationsByAddress, buildOperationsFilterByAddress, if_neg hlen, hoff]
    simp only [Bool.false_eq_true, if_false, happ, mongoSort]
  have hR : OperationsByAddress coll address true offset 0
      = some ((coll.filter (fun r => r.addresses.contains address &&
          (decide (r.height < h) || (decide (r.height = h) && decide (r.index < i))))
        ).insertionSort opDesc) := by
    rw [OperationsByAddress, buildOperationsFilterByAddress, if_neg hlen, hoff]
    simp only [if_true, happ, mongoSort]
  refine ⟨_, _, hF, hR, ?_, ?_, ?_, ?_⟩
  · intro r
    simp [List.mem_insertionSort, List.mem_filter, List.elem_iff, and_assoc]
  · exact List.sorted_insertionSort opAsc _
  · intro r
    simp [List.mem_insertionSort, List.mem_filter, List.elem_iff, and_assoc]
  · exact List.sorted_insertionSort opDesc _

/-- Witness for C4: a concrete five-record collection scanned both ways
from offset `"1,0"`. -/
theorem operationsByAddress_cursor_semantics_witness :
    ∃ fwd rev : List OpRecord,
      OperationsByAddress
        [⟨1, 0, ["a"], 0⟩, ⟨1, 1, ["a"], 1⟩, ⟨2, 0, ["a"], 2⟩,
         ⟨0, 5, ["a"], 3⟩, ⟨1, 0, ["b"], 4⟩] "a" false "1,0" 0 = some fwd ∧
      OperationsByAddress
        [⟨1, 0, ["a"], 0⟩, ⟨1, 1, ["a"], 1⟩, ⟨2, 0, ["a"], 2⟩,
         ⟨0, 5, ["a"], 3⟩, ⟨1, 0, ["b"], 4⟩] "a" true "1,0" 0 = some rev ∧
      (∀ r : OpRecord, r ∈ fwd ↔
        r ∈ [⟨1, 0, ["a"], 0⟩, ⟨1, 1, ["a"], 1⟩, ⟨2, 0, ["a"], 2⟩,
             ⟨0, 5, ["a"], 3⟩, ⟨1, 0, ["b"], 4⟩] ∧ "a" ∈ r.addresses ∧
        (1 < r.height ∨ (r.height = 1 ∧ 0 < r.index))) ∧
      fwd.Sorted opAsc ∧
      (∀ r : OpRecord, r ∈ rev ↔
        r ∈ [⟨1, 0, ["a"], 0⟩, ⟨1, 1, ["a"], 1⟩, ⟨2, 0, ["a"], 2⟩,
             ⟨0, 5, ["a"], 3⟩, ⟨1, 0, ["b"], 4⟩] ∧ "a" ∈ r.addresses ∧
        (r.height < 1 ∨ (r.height = 1 ∧ r.index < 0))) ∧
      rev.Sorted opDesc :=
  operationsByAddress_cursor_semantics _ "a" "1,0" 1 0 (by decide) (by decide)

/-- A collection of 51 operation records, all for address `"a"` at
height 0, indices 0..50. -/
def manyOpsColl : List OpRecord := (List.range 51).map fun k => ⟨0, k, ["a"], k⟩

/-- Counterexample for C5: with requested limit `0` the scan is
unlimited — on a 51-record collection the callback receives 51 records,
more than the server maximum `maxLimit = 50`. -/
theorem operationsByAddress_limit_zero_uncapped :
    ¬ ((OperationsByAddress manyOpsColl "a" false "" 0).getD []).length ≤ maxLimit.toNat := by
  decide

/-- C5 amended: for every requested limit `>= 1`, `OperationsByAddress`
and `Operations` deliver at most `maxLimit = 50` matches to the
callback (a limit `<= 0` disables the cap entirely). -/
theorem operations_limit_capped (coll : List OpRecord) (filt : OpRecord → Bool)
    (reverse : Bool) (limit : Int) (address offset : String) (l : List OpRecord)
    (hl : 1 ≤ limit) :
    (Operations coll filt reverse limit).length ≤ maxLimit.toNat ∧
    (OperationsByAddress coll address reverse offset limit = some l →
      l.length ≤ maxLimit.toNat) := by
  have key : ∀ m : List OpRecord, (applyLimit limit m).length ≤ maxLimit.toNat := by
    intro m
    rw [applyLimit, if_neg (by omega)]
    split_ifs with hgt
    · simp [List.length_take]
    · simp only [List.length_take]
      have : limit.toNat ≤ maxLimit.toNat := by
        simp only [maxLimit] at hgt ⊢; omega
      omega
  constructor
  · exact key _
  · intro hres
    rw [OperationsByAddress] at hres
    rcases hfilt : buildOperationsFilterByAddress address offset reverse with _ | filt2
    · rw [hfilt] at hres; cases hres
    · rw [hfilt] at hres
      simp only [Option.some.injEq] at hres
      rw [← hres]
      exact key _

/-- Witness for C5 (amended) at limit 1 on the 51-record collection. -/
theorem operations_limit_capped_witness :
    (Operations manyOpsColl (fun _ => true) false 1).length ≤ maxLimit.toNat ∧
    (OperationsByAddress manyOpsColl "a" false "" 1 = some [⟨0, 0, ["a"], 0⟩] →
      ([(⟨0, 0, ["a"], 0⟩ : OpRecord)]).length ≤ maxLimit.toNat) :=
  operations_limit_capped manyOpsColl (fun _ => true) false 1 "a" ""
    [⟨0, 0, ["a"], 0⟩] (by decide)

/-! ## The derived store (src/digest/database.go:39-240)

For the marker and rollback claims only the height of a derived record
matters; the payload is an opaque identifier.  The five collections are
`digest_ac`, `digest_dm`, `digest_bl`, `digest_op`, `digest_fd`; the
in-memory `st.lastBlock` mirrors the persisted
`DigestStorageLastBlockKey` info entry (`SetInfo`).  A possible storage
failure of `SetInfo` is modelled by the `setInfoFails` flag. -/

/-- A record of one of the derived collections. -/
structure DRec where
  height : Int
  payload : Nat
  deriving DecidableEq, Repr

/-- The digest `Database` state. -/
structure Database where
  acRecords : List DRec
  dmRecords : List DRec
  blRecords : List DRec
  opRecords : List DRec
  fdRecords : List DRec
  lastBlock : Int
  infoStore : Option Int
  readonly : Bool
  setInfoFails : Bool
  deriving DecidableEq, Repr

/-- Errors surfaced by the store operations. -/
inductive StoreErr
  | readonlyMode
  | storage
  deriving DecidableEq, Repr

/-- `setLastBlock` (src/digest/database.go:155): persist the height with
`SetInfo` (which can fail, leaving the in-memory marker unchanged), then
update the in-memory marker. -/
def setLastBlock (st : Database) (height : Int) : Except StoreErr Database :=
  if st.setInfoFails then .error .storage
  else .ok { st with infoStore := some height, lastBlock := height }

/-- `SetLastBlock` (src/digest/database.go:140): fail in read-only mode;
no-op when `height <= st.lastBlock`; otherwise persist and set. -/
def SetLastBlock (st : Database) (height : Int) : Except StoreErr Database :=
  if st.readonly then .error .readonlyMode
  else if height ≤ st.lastBlock then .ok st
  else setLastBlock st height

/-- `clean` (src/digest/database.go:178): drop all five collections,
then set the marker to `NilHeight`. -/
def clean (st : Database) : Except StoreErr Database :=
  setLastBlock
    { st with
      acRecords := []
      dmRecords := []
      blRecords := []
      opRecords := []
      fdRecords := [] }
    NilHeight

/-- The `DeleteMany` model with filter `{height: {$gte: height}}`: keep
exactly the records with a smaller height. -/
def removeByHeight (height : Int) (l : List DRec) : List DRec :=
  l.filter fun r => decide (r.height < height)

/-- `cleanByHeight` (src/digest/database.go:213): full `clean` for
`height <= PreGenesisHeight+1`; otherwise bulk-delete records with
height `>= height` from the account, document, balance and operation
collections (the loop at lines 221-226 — note `digest_fd` is not in
that list) and set the marker to `height - 1`. -/
def cleanByHeight (st : Database) (height : Int) : Except StoreErr Database :=
  if height ≤ PreGenesisHeight + 1 then clean st
  else
    setLastBlock
      { st with
        acRecords := removeByHeight height st.acRecords
        dmRecords := removeByHeight height st.dmRecords
        blRecords := removeByHeight height st.blRecords
        opRecords := removeByHeight height st.opRecords }
      (height - 1)

/-- `CleanByHeight` (src/digest/database.go:202): read-only guard around
`cleanByHeight`. -/
def CleanByHeight (st : Database) (height : Int) : Except StoreErr Database :=
  if st.readonly then .error .readonlyMode else cleanByHeight st height

/-- `Clean` (src/digest/database.go:167): read-only guard around `clean`. -/
def Clean (st : Database) : Except StoreErr Database :=
  if st.readonly then .error .readonlyMode else clean st

/-- A concrete writable store holding one record at height 1 in each of
the five collections. -/
def height1Store : Database :=
  { acRecords := [⟨1, 0⟩], dmRecords := [⟨1, 1⟩], blRecords := [⟨1, 2⟩],
    opRecords := [⟨1, 3⟩], fdRecords := [⟨1, 4⟩],
    lastBlock := 1, infoStore := some 1, readonly := false, setInfoFails := false }

/-- Counterexample for C2: `CleanByHeight 1` on a writable store leaves
the filedata record of height `1 >= 1` in place — the `digest_fd`
collection is missing from the bulk-delete loop — so the claim that
every collection is purged of records with height `>= h` is false. -/
theorem cleanByHeight_misses_filedata :
    CleanByHeight height1Store 1 = .ok
      { acRecords := [], dmRecords := [], blRecords := [], opRecords := [],
        fdRecords := [⟨1, 4⟩], lastBlock := 0, infoStore := some 0,
        readonly := false, setInfoFails := false } ∧
    ¬ (∀ r ∈ [(⟨1, 4⟩ : DRec)], r.height < 1) := by
  constructor
  · rfl
  · decide

/-- C2 amended: for `h > PreGenesisHeight + 1`, a successful
`CleanByHeight h` on a writable store removes exactly the records with
height `>= h` from the accounts, documents, balances and operations
collections, leaves the filedata collection untouched, and sets the
last-digested-height marker to `h - 1`.  (For `h <= PreGenesisHeight+1`
it instead drops all five collections and resets the marker to
`NilHeight`.) -/
theorem cleanByHeight_removes (st : Database) (h : Int) (st' : Database)
    (hw : st.readonly = false) (hh : PreGenesisHeight + 1 < h)
    (hres : CleanByHeight st h = .ok st') :
    (∀ r : DRec, r ∈ st'.acRecords ↔ r ∈ st.acRecords ∧ r.height < h) ∧
    (∀ r : DRec, r ∈ st'.dmRecords ↔ r ∈ st.dmRecords ∧ r.height < h) ∧
    (∀ r : DRec, r ∈ st'.blRecords ↔ r ∈ st.blRecords ∧ r.height < h) ∧
    (∀ r : DRec, r ∈ st'.opRecords ↔ r ∈ st.opRecords ∧ r.height < h) ∧
    st'.fdRecords = st.fdRecords ∧
    st'.lastBlock = h - 1 := by
  rw [CleanByHeight, hw, if_neg (Bool.false_ne_true), cleanByHeight,
    if_neg (by omega), setLastBlock] at hres
  rcases hsi : st.setInfoFails with _ | _
  · rw [hsi, if_neg (Bool.false_ne_true)] at hres
    simp only [Except.ok.injEq] at hres
    subst hres
    simp [removeByHeight, List.mem_filter]
  · rw [hsi, if_pos rfl] at hres
    cases hres

/-- Witness for C2 (amended) at the concrete `height1Store` with `h = 1`. -/
theorem cleanByHeight_removes_witness :
    (∀ r : DRec, r ∈ ([] : List DRec) ↔ r ∈ height1Store.acRecords ∧ r.height < 1) ∧
    (∀ r : DRec, r ∈ ([] : List DRec) ↔ r ∈ height1Store.dmRecords ∧ r.height < 1) ∧
    (∀ r : DRec, r ∈ ([] : List DRec) ↔ r ∈ height1Store.blRecords ∧ r.height < 1) ∧
    (∀ r : DRec, r ∈ ([] : List DRec) ↔ r ∈ height1Store.opRecords ∧ r.height < 1) ∧
    ([(⟨1, 4⟩ : DRec)] = height1Store.fdRecords) ∧
    ((1 : Int) - 1 + 1 = 1) := by
  have base := cleanByHeight_removes height1Store 1
    { acRecords := [], dmRecords := [], blRecords := [], opRecords := [],
      fdRecords := [⟨1, 4⟩], lastBlock := 0, infoStore := some 0,
      readonly := false, setInfoFails := false }
    (by decide) (by decide) rfl
  refine ⟨base.1, base.2.1, base.2.2.1, base.2.2.2.1, base.2.2.2.2.1, by decide⟩

/-- C6: on a writable store, `SetLastBlock h` with `h` at most the
current marker returns `ok` with the store unchanged; with `h` above
the marker it sets the marker to `h` on success; and in every
successful outcome the marker never decreases. -/
theorem setLastBlock_monotone (st : Database) (h : Int) (hw : st.readonly = false) :
    (h ≤ st.lastBlock → SetLastBlock st h = .ok st) ∧
    (st.lastBlock < h → ∀ st' : Database,
      SetLastBlock st h = .ok st' → st'.lastBlock = h) ∧
    (∀ st' : Database, SetLastBlock st h = .ok st' → st.lastBlock ≤ st'.lastBlock) := by
  refine ⟨?_, ?_, ?_⟩
  · intro hle
    rw [SetLastBlock, hw, if_neg (Bool.false_ne_true), if_pos hle]
  · intro hlt st' hres
    rw [SetLastBlock, hw, if_neg (Bool.false_ne_true), if_neg (by omega),
      setLastBlock] at hres
    rcases hsi : st.setInfoFails with _ | _
    · rw [hsi, if_neg (Bool.false_ne_true)] at hres
      simp only [Except.ok.injEq] at hres
      subst hres
      rfl
    · rw [hsi, if_pos rfl] at hres
      cases hres
  · intro st' hres
    rw [SetLastBlock, hw, if_neg (Bool.false_ne_true)] at hres
    split_ifs at hres with hle
    · simp only [Except.ok.injEq] at hres
      subst hres
      exact le_rfl
    · rw [setLastBlock] at hres
      split_ifs at hres
      simp only [Except.ok.injEq] at hres
      subst hres
      show st.lastBlock ≤ h
      omega

/-- Witness for C6 on the concrete `height1Store` (marker at 1). -/
theorem setLastBlock_monotone_witness :
    ((1 : Int) ≤ height1Store.lastBlock → SetLastBlock height1Store 1 = .ok height1Store) ∧
    (height1Store.lastBlock < 1 → ∀ st' : Database,
      SetLastBlock height1Store 1 = .ok st' → st'.lastBlock = 1) ∧
    (∀ st' : Database, SetLastBlock height1Store 1 = .ok st' →
      height1Store.lastBlock ≤ st'.lastBlock) :=
  setLastBlock_monotone height1Store 1 (by decide)

/-! ## `DigestBlock` (src/digest/digest.go:128-144)

The Block Session driven by `DigestBlock` (`NewBlockSession`,
`bs.Prepare`, `bs.Commit`) lives in `block_session.go`, which is not
among the available sources. -/

/-- A finalized block; only its height matters here. -/
structure Block where
  height : Int
  deriving DecidableEq, Repr

/-- Modelled from the spec: the Block Session of §4.2 (its source,
`block_session.go`, is not under `src/`).  `Prepare()` derives all
document upserts in memory "without touching storage"; `Commit(ctx)`
"applies them as one atomic batch" to the collections; neither advances
the last-digested-height marker ("the marker is only advanced after a
fully successful commit").  The three flags model a failing
`NewBlockSession`, `Prepare` or `Commit`; the five lists are the batch
of records the commit appends. -/
structure BlockSession where
  newFails : Bool
  prepareFails : Bool
  commitFails : Bool
  acUps : List DRec
  dmUps : List DRec
  blUps : List DRec
  opUps : List DRec
  fdUps : List DRec
  deriving DecidableEq, Repr

/-- The atomic batch application of a successful `Commit`: collection
upserts only, marker untouched. -/
def commitApply (bs : BlockSession) (st : Database) : Database :=
  { st with
    acRecords := st.acRecords ++ bs.acUps
    dmRecords := st.dmRecords ++ bs.dmUps
    blRecords := st.blRecords ++ bs.blUps
    opRecords := st.opRecords ++ bs.opUps
    fdRecords := st.fdRecords ++ bs.fdUps }

/-- Errors returned by `DigestBlock`. -/
inductive DigestErr
  | sessionNew
  | prepare
  | commit
  | store (e : StoreErr)
  deriving DecidableEq, Repr

/-- `DigestBlock` (src/digest/digest.go:128): create the session, run
`Prepare`, then `Commit`, and only then `SetLastBlock(blk.Height())`;
any failure is returned immediately.  The pair carries the error (or
`none`) together with the resulting store state. -/
def DigestBlock (st : Database) (bs : BlockSession) (blk : Block) :
    Option DigestErr × Database :=
  if bs.newFails then (some .sessionNew, st)
  else if bs.prepareFails then (some .prepare, st)
  else if bs.commitFails then (some .commit, st)
  else
    match SetLastBlock (commitApply bs st) blk.height with
    | .error e => (some (.store e), commitApply bs st)
    | .ok st' => (none, st')

/-- C3: `DigestBlock` advances the marker (via `SetLastBlock` with the
block's height) only after `Prepare` and `Commit` have both succeeded;
if `Prepare` or `Commit` fails, `DigestBlock` returns that error and the
marker is unchanged. -/
theorem digestBlock_marker (st : Database) (bs : BlockSession) (blk : Block)
    (hnew : bs.newFails = false) :
    (bs.prepareFails = true →
      DigestBlock st bs blk = (some .prepare, st)) ∧
    (bs.prepareFails = false → bs.commitFails = true →
      (DigestBlock st bs blk).1 = some .commit ∧
      (DigestBlock st bs blk).2.lastBlock = st.lastBlock) ∧
    (bs.prepareFails = false → bs.commitFails = false →
      DigestBlock st bs blk
        = (match SetLastBlock (commitApply bs st) blk.height with
           | .error e => (some (.store e), commitApply bs st)
           | .ok st' => (none, st')) ∧
      (st.readonly = false → st.setInfoFails = false → st.lastBlock < blk.height →
        (DigestBlock st bs blk).1 = none ∧
        (DigestBlock st bs blk).2.lastBlock = blk.height)) := by
  refine ⟨?_, ?_, ?_⟩
  · intro hp
    rw [DigestBlock, hnew, if_neg (Bool.false_ne_true), hp, if_pos rfl]
  · intro hp hc
    rw [DigestBlock, hnew, if_neg (Bool.false_ne_true), hp,
      if_neg (Bool.false_ne_true), hc, if_pos rfl]
    exact ⟨rfl, rfl⟩
  · intro hp hc
    have hdb : DigestBlock st bs blk
        = (match SetLastBlock (commitApply bs st) blk.height with
           | .error e => (some (.store e), commitApply bs st)
           | .ok st' => (none, st')) := by
      rw [DigestBlock, hnew, if_neg (Bool.false_ne_true), hp,
        if_neg (Bool.false_ne_true), hc, if_neg (Bool.false_ne_true)]
    refine ⟨hdb, ?_⟩
    intro hro hsi hlt
    have hca : (commitApply bs st).readonly = false := hro
    have hcb : (commitApply bs st).setInfoFails = false := hsi
    have hcl : (commitApply bs st).lastBlock = st.lastBlock := rfl
    rw [hdb, SetLastBlock, hca, if_neg (Bool.false_ne_true),
      if_neg (by rw [hcl]; omega), setLastBlock, hcb,
      if_neg (Bool.false_ne_true)]
    exact ⟨rfl, rfl⟩

/-- Witness for C3: a concrete failing-commit session over
`height1Store`. -/
theorem digestBlock_marker_witness :
    ((false : Bool) = true →
      DigestBlock height1Store ⟨false, false, true, [], [], [], [], []⟩ ⟨2⟩
        = (some .prepare, height1Store)) ∧
    ((false : Bool) = false → (true : Bool) = true →
      (DigestBlock height1Store ⟨false, false, true, [], [], [], [], []⟩ ⟨2⟩).1
          = some .commit ∧
      (DigestBlock height1Store ⟨false, false, true, [], [], [], [], []⟩ ⟨2⟩).2.lastBlock
          = height1Store.lastBlock) ∧
    ((false : Bool) = false → (true : Bool) = false →
      DigestBlock height1Store ⟨false, false, true, [], [], [], [], []⟩ ⟨2⟩
        = (match SetLastBlock
              (commitApply ⟨false, false, true, [], [], [], [], []⟩ height1Store)
              ((⟨2⟩ : Block).height) with
           | .error e =>
             (some (.store e),
              commitApply ⟨false, false, true, [], [], [], [], []⟩ height1Store)
           | .ok st' => (none, st')) ∧
      (height1Store.readonly = false → height1Store.setInfoFails = false →
        height1Store.lastBlock < (⟨2⟩ : Block).height →
        (DigestBlock height1Store ⟨false, false, true, [], [], [], [], []⟩ ⟨2⟩).1 = none ∧
        (DigestBlock height1Store ⟨false, false, true, [], [], [], [], []⟩ ⟨2⟩).2.lastBlock
          = (⟨2⟩ : Block).height)) :=
  digestBlock_marker height1Store ⟨false, false, true, [], [], [], [], []⟩ ⟨2⟩ (by decide)

/-! ## The account-operations HTTP handler (src/unnamed/part_003:114-254)

The HAL document is modelled by its self URL, its named links (in the
order `AddLink` appends them) and the embedded item list; items are the
operation records themselves (`buildOperationHal` only wraps a record
in a HAL envelope).  The URL helpers `combineURL`, `addQueryValue`,
`stringOffsetQuery` and `stringBoolQuery` build plain query strings. -/

/-- A HAL hypermedia document over operation items. -/
structure Hal where
  selfURL : String
  links : List (String × String)
  embedded : List OpRecord
  deriving DecidableEq, Repr

/-- `AddLink`: append a named link. -/
def addLink (h : Hal) (name href : String) : Hal :=
  { h with links := h.links ++ [(name, href)] }

/-- `stringOffsetQuery offset` = `"offset=<offset>"`. -/
def stringOffsetQuery (offset : String) : String := "offset=" ++ offset

/-- `stringBoolQuery key v` = `"<key>=1"` or `"<key>=0"`. -/
def stringBoolQuery (key : String) (v : Bool) : String :=
  key ++ "=" ++ (if v then "1" else "0")

/-- `addQueryValue`: attach a query string to a URL. -/
def addQueryValue (base q : String) : String := base ++ "?" ++ q

/-- `combineURL(HandlerPathAccountOperations, "address", addr)`. -/
def accountOperationsURL (address : String) : String :=
  "/account/" ++ address ++ "/operations"

/-- `combineURL(HandlerPathAccount, "address", addr)`. -/
def accountURL (address : String) : String := "/account/" ++ address

/-- `buildAccountOperationsHal` (src/unnamed/part_003:204): the self
link (offset/reverse query attached as in the source, where a reverse
query overwrites the offset one), the `account` link, then — whenever
the item list is non-empty, so that `nextoffset` is a non-empty string —
a `next` link pointing at the offset of the last returned item, and
finally the `reverse` link. -/
def buildAccountOperationsHal (address : String) (vas : List OpRecord)
    (offset : String) (reverse : Bool) : Hal :=
  let baseSelf := accountOperationsURL address
  let self1 := if 0 < offset.length
    then addQueryValue baseSelf (stringOffsetQuery offset) else baseSelf
  let self := if reverse
    then addQueryValue baseSelf (stringBoolQuery "reverse" reverse) else self1
  let hal0 : Hal := { selfURL := self, links := [], embedded := vas }
  let hal1 := addLink hal0 "account" (accountURL address)
  let nextoffset :=
    match vas.getLast? with
    | some va => buildOffset va.height va.index
    | none => ""
  let hal2 :=
    if 0 < nextoffset.length then
      let next1 := addQueryValue baseSelf (stringOffsetQuery nextoffset)
      let next := if reverse
        then addQueryValue next1 (stringBoolQuery "reverse" reverse) else next1
      addLink hal1 "next" next
    else hal1
  addLink hal2 "reverse"
    (addQueryValue baseSelf (stringBoolQuery "reverse" (!reverse)))

/-- Errors of the account-operations handler. -/
inductive HandlerErr
  | scanError
  | notFound
  deriving DecidableEq, Repr

/-- `GlobalItemsLimit` (src/unnamed/part_002:81), returned by
`defaultItemsLimiter`, the default `itemsLimiter`. -/
def GlobalItemsLimit : Int := 10

/-- `handleAccountOperationsInGroup` (src/unnamed/part_003:165): a
negative requested limit is replaced by the items limiter's value; the
scan results are wrapped into HAL items; an empty result is turned into
a not-found error; otherwise the HAL page document is built and the
page is flagged `filled` when `int64(len(vas)) == limit`. -/
def handleAccountOperationsInGroup (coll : List OpRecord) (address : String)
    (offset : String) (l : Int) (reverse : Bool) :
    Except HandlerErr (Hal × Bool) :=
  let limit := if l < 0 then GlobalItemsLimit else l
  match OperationsByAddress coll address reverse offset limit with
  | none => .error .scanError
  | some vas =>
    if vas.length < 1 then .error .notFound
    else .ok (buildAccountOperationsHal address vas offset reverse,
              decide ((vas.length : Int) = limit))

/-- `handleError` (src/unnamed/part_002:346, the status mapping used by
the handlers): `util.NotFoundError` is rendered as HTTP 404 with a
problem document; other store errors default to 500. -/
def handleErrorStatus : HandlerErr → Nat
  | .notFound => 404
  | .scanError => 500

/-- `hd.expireNotFilled` and the 30-hour TTL of
`handleAccountOperations` (src/unnamed/part_003:154-160), in seconds:
`expire := hd.expireNotFilled; if len(offset) > 0 && filled
{ expire = time.Hour * 30 }`. -/
def timeHour : Int := 3600

/-- Modelled from the spec: `hd.expireNotFilled` (the `Handlers` field
is initialised outside the available sources); the spec fixes it to "a
TTL of a few seconds" — 3 seconds here. -/
def expireNotFilled : Int := 3

/-- The cache expiration chosen by `handleAccountOperations`
(src/unnamed/part_003:154-160) for a successful, non-shared response. -/
def cacheExpire (offset : String) (filled : Bool) : Int :=
  if 0 < offset.length ∧ filled = true then 30 * timeHour else expireNotFilled

theorem buildOffset_length_pos (h : Int) (i : Nat) : 0 < (buildOffset h i).length := by
  rw [buildOffset]
  show 0 < (formatInt h ++ ',' :: formatNat i).length
  simp

theorem buildAccountOperationsHal_embedded (address : String) (vas : List OpRecord)
    (offset : String) (reverse : Bool) :
    (buildAccountOperationsHal address vas offset reverse).embedded = vas := by
  rw [buildAccountOperationsHal]
  cases hx : vas.getLast? <;> simp only [addLink] <;> split_ifs <;> rfl

/-- Counterexample for C7: a request with limit 10 returning a single
item (a partial page, `filled = false`) still carries the `_links.next`
pagination link. -/
theorem next_link_on_partial_page :
    (handleAccountOperationsInGroup [⟨0, 0, ["a"], 0⟩] "a" "" 10 false).toOption.map
      (fun p => (p.2, (p.1.links.map Prod.fst).contains "next")) = some (false, true) := by
  decide

/-- C7 amended: the `_links.next` pagination link is present in every
successful account-operations response — the handler turns an empty
page into a not-found error, and attaches `next` (built from the last
returned item) whenever at least one item is returned — regardless of
whether the page was full. -/
theorem handleInGroup_ok (coll : List OpRecord) (address offset : String)
    (l : Int) (reverse : Bool) (vas : List OpRecord)
    (hscan : OperationsByAddress coll address reverse offset
      (if l < 0 then GlobalItemsLimit else l) = some vas)
    (hlen : 1 ≤ vas.length) :
    handleAccountOperationsInGroup coll address offset l reverse
      = .ok (buildAccountOperationsHal address vas offset reverse,
             decide ((vas.length : Int) = (if l < 0 then GlobalItemsLimit else l))) := by
  rw [handleAccountOperationsInGroup, hscan]
  show (if vas.length < 1 then Except.error HandlerErr.notFound else _) = _
  rw [if_neg (by omega)]

theorem next_link_always_present (coll : List OpRecord) (address offset : String)
    (l : Int) (reverse : Bool) (hal : Hal) (filled : Bool)
    (hres : handleAccountOperationsInGroup coll address offset l reverse
      = .ok (hal, filled)) :
    (hal.links.map Prod.fst).contains "next" = true := by
  rcases hscan : OperationsByAddress coll address reverse offset
      (if l < 0 then GlobalItemsLimit else l) with _ | vas
  · rw [handleAccountOperationsInGroup, hscan] at hres
    simp at hres
  · rcases Nat.lt_or_ge vas.length 1 with hlen | hlen
    · rw [handleAccountOperationsInGroup, hscan] at hres
      simp [hlen] at hres
    · rw [handleInGroup_ok coll address offset l reverse vas hscan hlen] at hres
      simp only [Except.ok.injEq, Prod.mk.injEq] at hres
      obtain ⟨hhal, -⟩ := hres
      subst hhal
      have hne : vas ≠ [] := by
        intro hnil; rw [hnil] at hlen; simp at hlen
      obtain ⟨va, hva⟩ := Option.isSome_iff_exists.mp
        (List.getLast?_isSome.mpr hne)
      rw [buildAccountOperationsHal, hva]
      simp only [addLink, if_pos (buildOffset_length_pos va.height va.index)]
      rw [List.elem_iff]
      simp

/-- Witness for C7 (amended) at a concrete one-item page. -/
theorem next_link_always_present_witness :
    ((buildAccountOperationsHal "a" [⟨0, 0, ["a"], 0⟩] "" false).links.map
      Prod.fst).contains "next" = true :=
  next_link_always_present [⟨0, 0, ["a"], 0⟩] "a" "" 10 false
    (buildAccountOperationsHal "a" [⟨0, 0, ["a"], 0⟩] "" false) false rfl

/-- Counterexample for C8: a full page (`filled = true`, two items at
limit 2) requested without an offset cursor is cached with the short
`expireNotFilled` TTL of a few seconds, not a multi-hour TTL. -/
theorem full_first_page_short_ttl :
    (handleAccountOperationsInGroup [⟨0, 0, ["a"], 0⟩, ⟨0, 1, ["a"], 1⟩]
        "a" "" 2 false).toOption.map (fun p => p.2) = some true ∧
    cacheExpire "" true = expireNotFilled ∧
    expireNotFilled < timeHour := by
  refine ⟨by decide, by decide, by decide⟩

/-- C8 amended: for a successful, cacheable account-operations
response, the multi-hour (30-hour) TTL is used exactly when the request
carried a non-empty offset cursor and the returned page was full (item
count equal to the adjusted limit); otherwise — partial page, or any
page requested without an offset — the short `expireNotFilled` TTL of a
few seconds is used. -/
theorem cacheExpire_policy (coll : List OpRecord) (address offset : String)
    (l : Int) (reverse : Bool) (hal : Hal) (filled : Bool)
    (hres : handleAccountOperationsInGroup coll address offset l reverse
      = .ok (hal, filled)) :
    cacheExpire offset filled =
      (if 0 < offset.length ∧
          (hal.embedded.length : Int) = (if l < 0 then GlobalItemsLimit else l)
       then 30 * timeHour else expireNotFilled) := by
  rcases hscan : OperationsByAddress coll address reverse offset
      (if l < 0 then GlobalItemsLimit else l) with _ | vas
  · rw [handleAccountOperationsInGroup, hscan] at hres
    simp at hres
  · rcases Nat.lt_or_ge vas.length 1 with hlen | hlen
    · rw [handleAccountOperationsInGroup, hscan] at hres
      simp [hlen] at hres
    · rw [handleInGroup_ok coll address offset l reverse vas hscan hlen] at hres
      simp only [Except.ok.injEq, Prod.mk.injEq] at hres
      obtain ⟨hhal, hfill⟩ := hres
      subst hhal
      rw [cacheExpire, buildAccountOperationsHal_embedded, ← hfill]
      simp [decide_eq_true_eq]

/-- Witness for C8 (amended) at a concrete full continuation page. -/
theorem cacheExpire_policy_witness :
    cacheExpire "0,0" true =
      (if 0 < ("0,0" : String).length ∧
          (((buildAccountOperationsHal "a" [⟨0, 1, ["a"], 1⟩] "0,0" false).embedded.length : Nat) : Int)
            = (if (1 : Int) < 0 then GlobalItemsLimit else 1)
       then 30 * timeHour else expireNotFilled) :=
  cacheExpire_policy [⟨0, 0, ["a"], 0⟩, ⟨0, 1, ["a"], 1⟩] "a" "0,0" 1 false
    (buildAccountOperationsHal "a" [⟨0, 1, ["a"], 1⟩] "0,0" false) true rfl

/-- C10: an account-operations query whose scan matches zero records is
answered with the not-found error — mapped to HTTP 404 by the problem
renderer — and a successful response never carries an empty embedded
item list. -/
theorem accountOperations_empty_not_found (coll : List OpRecord)
    (address offset : String) (l : Int) (reverse : Bool) :
    (OperationsByAddress coll address reverse offset
        (if l < 0 then GlobalItemsLimit else l) = some [] →
      handleAccountOperationsInGroup coll address offset l reverse
        = .error .notFound) ∧
    (∀ (hal : Hal) (filled : Bool),
      handleAccountOperationsInGroup coll address offset l reverse
        = .ok (hal, filled) → 1 ≤ hal.embedded.length) ∧
    handleErrorStatus .notFound = 404 := by
  refine ⟨?_, ?_, rfl⟩
  · intro hscan
    rw [handleAccountOperationsInGroup, hscan]
    rfl
  · intro hal filled hres
    rcases hscan : OperationsByAddress coll address reverse offset
        (if l < 0 then GlobalItemsLimit else l) with _ | vas
    · rw [handleAccountOperationsInGroup, hscan] at hres
      simp at hres
    · rcases Nat.lt_or_ge vas.length 1 with hlen | hlen
      · rw [handleAccountOperationsInGroup, hscan] at hres
        simp [hlen] at hres
      · rw [handleInGroup_ok coll address offset l reverse vas hscan hlen] at hres
        simp only [Except.ok.injEq, Prod.mk.injEq] at hres
        obtain ⟨hhal, -⟩ := hres
        subst hhal
        rw [buildAccountOperationsHal_embedded]
        omega

/-- Witness for C10 on a collection with no record for the queried
address. -/
theorem accountOperations_empty_not_found_witness :
    (OperationsByAddress [(⟨0, 0, ["b"], 0⟩ : OpRecord)] "a" false ""
        (if (5 : Int) < 0 then GlobalItemsLimit else 5) = some [] →
      handleAccountOperationsInGroup [(⟨0, 0, ["b"], 0⟩ : OpRecord)] "a" "" 5 false
        = .error .notFound) ∧
    (∀ (hal : Hal) (filled : Bool),
      handleAccountOperationsInGroup [(⟨0, 0, ["b"], 0⟩ : OpRecord)] "a" "" 5 false
        = .ok (hal, filled) → 1 ≤ hal.embedded.length) ∧
    handleErrorStatus .notFound = 404 :=
  accountOperations_empty_not_found [(⟨0, 0, ["b"], 0⟩ : OpRecord)] "a" "" 5 false

/-! ## `Account` and `balance` (src/digest/database.go:431-525)

A document of the `digest_bl` balance collection: one record per
(address, currency, height) mutation; `loadBalance` and
`currency.StateBalanceValue` expose its state height, previous height
and the `Amount`.  A document of the `digest_ac` account collection is
an address-keyed record with a height. -/

/-- One document of the `digest_bl` balance collection. -/
structure BRec where
  address : String
  currency : String
  height : Int
  previousHeight : Int
  amount : Nat
  deriving DecidableEq, Repr

/-- One document of the `digest_ac` account collection. -/
structure ARec where
  address : String
  height : Int
  payload : Nat
  deriving DecidableEq, Repr

/-- Mongo `FindOne` with sort `{height: -1}`: the matching record with
the greatest height, the earliest one in the collection when heights
tie. -/
def findMaxAux {α : Type} (height : α → Int) (p : α → Bool) :
    Option α → List α → Option α
  | acc, [] => acc
  | none, r :: rest =>
    if p r then findMaxAux height p (some r) rest
    else findMaxAux height p none rest
  | some b, r :: rest =>
    if p r then
      (if height b < height r then findMaxAux height p (some r) rest
       else findMaxAux height p (some b) rest)
    else findMaxAux height p (some b) rest

/-- `GetByFilter(..., options.FindOne().SetSort({height: -1}))`. -/
def findOneMaxHeight {α : Type} (height : α → Int) (p : α → Bool)
    (coll : List α) : Option α :=
  findMaxAux height p none coll

theorem findMaxAux_ne_none {α : Type} (height : α → Int) (p : α → Bool) :
    ∀ (coll : List α) (b : α), findMaxAux height p (some b) coll ≠ none := by
  intro coll
  induction coll with
  | nil => intro b h; rw [findMaxAux] at h; cases h
  | cons r rest ih =>
    intro b
    rw [findMaxAux]
    split_ifs with hp hlt
    · exact ih r
    · exact ih b
    · exact ih b

theorem findMaxAux_mem {α : Type} (height : α → Int) (p : α → Bool) :
    ∀ (coll : List α) (acc : Option α) (r : α),
      findMaxAux height p acc coll = some r →
      acc = some r ∨ (r ∈ coll ∧ p r = true) := by
  intro coll
  induction coll with
  | nil => intro acc r h; rw [findMaxAux] at h; exact Or.inl h
  | cons x rest ih =>
    intro acc r h
    rcases acc with _ | b
    · rw [findMaxAux] at h
      split_ifs at h with hp
      · rcases ih (some x) r h with hx | hmem
        · simp only [Option.some.injEq] at hx
          subst hx
          exact Or.inr ⟨List.mem_cons_self x rest, hp⟩
        · exact Or.inr ⟨List.mem_cons_of_mem x hmem.1, hmem.2⟩
      · rcases ih none r h with hx | hmem
        · cases hx
        · exact Or.inr ⟨List.mem_cons_of_mem x hmem.1, hmem.2⟩
    · rw [findMaxAux] at h
      split_ifs at h with hp hlt
      · rcases ih (some x) r h with hx | hmem
        · simp only [Option.some.injEq] at hx
          subst hx
          exact Or.inr ⟨List.mem_cons_self x rest, hp⟩
        · exact Or.inr ⟨List.mem_cons_of_mem x hmem.1, hmem.2⟩
      · rcases ih (some b) r h with hb | hmem
        · exact Or.inl hb
        · exact Or.inr ⟨List.mem_cons_of_mem x hmem.1, hmem.2⟩
      · rcases ih (some b) r h with hb | hmem
        · exact Or.inl hb
        · exact Or.inr ⟨List.mem_cons_of_mem x hmem.1, hmem.2⟩

theorem findMaxAux_max {α : Type} (height : α → Int) (p : α → Bool) :
    ∀ (coll : List α) (acc : Option α) (r : α),
      findMaxAux height p acc coll = some r →
      (∀ y : α, acc = some y → height y ≤ height r) ∧
      (∀ b ∈ coll, p b = true → height b ≤ height r) := by
  intro coll
  induction coll with
  | nil =>
    intro acc r h
    rw [findMaxAux] at h
    refine ⟨?_, by simp⟩
    intro y hy
    rw [hy] at h
    simp only [Option.some.injEq] at h
    rw [h]
  | cons x rest ih =>
    intro acc r h
    rcases acc with _ | b
    · rw [findMaxAux] at h
      split_ifs at h with hp
      · have hrec := ih (some x) r h
        refine ⟨?_, ?_⟩
        · intro y hy; cases hy
        · intro b2 hb2 hpb2
          rcases List.mem_cons.mp hb2 with rfl | hmem
          · exact hrec.1 b2 rfl
          · exact hrec.2 b2 hmem hpb2
      · have hrec := ih none r h
        refine ⟨?_, ?_⟩
        · intro y hy; cases hy
        · intro b2 hb2 hpb2
          rcases List.mem_cons.mp hb2 with rfl | hmem
          · exact absurd hpb2 hp
          · exact hrec.2 b2 hmem hpb2
    · rw [findMaxAux] at h
      split_ifs at h with hp hlt
      · have hrec := ih (some x) r h
        refine ⟨?_, ?_⟩
        · intro y hy
          simp only [Option.some.injEq] at hy
          subst hy
          exact le_trans (le_of_lt hlt) (hrec.1 x rfl)
        · intro b2 hb2 hpb2
          rcases List.mem_cons.mp hb2 with rfl | hmem
          · exact hrec.1 b2 rfl
          · exact hrec.2 b2 hmem hpb2
      · have hrec := ih (some b) r h
        refine ⟨?_, ?_⟩
        · intro y hy
          simp only [Option.some.injEq] at hy
          subst hy
          exact hrec.1 _ rfl
        · intro b2 hb2 hpb2
          rcases List.mem_cons.mp hb2 with rfl | hmem
          · exact le_trans (not_lt.mp hlt) (hrec.1 b rfl)
          · exact hrec.2 b2 hmem hpb2
      · have hrec := ih (some b) r h
        refine ⟨hrec.1, ?_⟩
        intro b2 hb2 hpb2
        rcases List.mem_cons.mp hb2 with rfl | hmem
        · exact absurd hpb2 hp
        · exact hrec.2 b2 hmem hpb2

theorem findMaxAux_of_all_false {α : Type} (height : α → Int) (p : α → Bool) :
    ∀ (coll : List α) (acc : Option α),
      (∀ b ∈ coll, p b = false) → findMaxAux height p acc coll = acc := by
  intro coll
  induction coll with
  | nil => intro acc _; rw [findMaxAux]
  | cons x rest ih =>
    intro acc hall
    have hx : p x = false := hall x (List.mem_cons_self x rest)
    have htail : ∀ b ∈ rest, p b = false :=
      fun b hb => hall b (List.mem_cons_of_mem x hb)
    rcases acc with _ | b
    · rw [findMaxAux, if_neg (by rw [hx]; simp)]
      exact ih none htail
    · rw [findMaxAux, if_neg (by rw [hx]; simp)]
      exact ih (some b) htail

theorem length_filter_lt_of_mem {α : Type} (p : α → Bool) (x : α)
    (hpx : p x = false) :
    ∀ l : List α, x ∈ l → (l.filter p).length < l.length := by
  intro l
  induction l with
  | nil => intro hx; cases hx
  | cons y ys ih =>
    intro hx
    rw [List.filter_cons]
    rcases List.mem_cons.mp hx with rfl | hmem
    · rw [if_neg (by rw [hpx]; simp)]
      exact Nat.lt_succ_of_le (List.length_filter_le p ys)
    · split_ifs with hy
      · simp only [List.length_cons]
        exact Nat.succ_lt_succ (ih hmem)
      · exact Nat.lt_succ_of_lt (ih hmem)

/-- The filter of the repeated balance `GetByFilter` call
(src/digest/database.go:473-479): `{address: key(a)}`, extended with
`{currency: {$nin: cids}}` once currencies have been collected. -/
def balanceFilter (a : String) (cids : List String) (r : BRec) : Bool :=
  decide (r.address = a) && !(decide (r.currency ∈ cids))

theorem balanceFilter_append (a : String) (cids : List String) (c : String)
    (r : BRec) :
    balanceFilter a (cids ++ [c]) r
      = (!(decide (r.currency = c)) && balanceFilter a cids r) := by
  by_cases h1 : r.address = a <;> by_cases h2 : r.currency ∈ cids <;>
    by_cases h3 : r.currency = c <;>
      simp [balanceFilter, h1, h2, h3, List.mem_append]

theorem balanceLoop_measure (coll : List BRec) (a : String) (cids : List String)
    (r : BRec)
    (hfind : findOneMaxHeight BRec.height (balanceFilter a cids) coll = some r) :
    (coll.filter (balanceFilter a (cids ++ [r.currency]))).length
      < (coll.filter (balanceFilter a cids)).length := by
  rcases findMaxAux_mem BRec.height (balanceFilter a cids) coll none r hfind with
    h0 | ⟨hmem, hp⟩
  · cases h0
  · rw [List.filter_congr (fun b _ => balanceFilter_append a cids r.currency b),
      ← List.filter_filter]
    exact length_filter_lt_of_mem _ r (by simp)
      (coll.filter (balanceFilter a cids)) (List.mem_filter.mpr ⟨hmem, hp⟩)

/-- The `for { ... }` loop of `balance` (src/digest/database.go:472-515):
repeatedly fetch the most recent balance record of the address whose
currency has not yet been collected, until `NotFoundError` breaks the
loop; the result is the list of fetched records in loop order (the
`amm` map holds exactly those records, keyed by currency). -/
def balanceLoop (coll : List BRec) (a : String) (cids : List String) :
    List BRec :=
  match hfind : findOneMaxHeight BRec.height (balanceFilter a cids) coll with
  | none => []
  | some r => r :: balanceLoop coll a (cids ++ [r.currency])
termination_by (coll.filter (balanceFilter a cids)).length
decreasing_by exact balanceLoop_measure coll a cids r hfind

/-- The running `(lastHeight, previousHeight)` update of the loop body
(src/digest/database.go:511-514): replaced whenever a fetched record's
height exceeds the current `lastHeight`. -/
def lastPrevStep (lp : Int × Int) (r : BRec) : Int × Int :=
  if lp.1 < r.height then (r.height, r.previousHeight) else lp

/-- `balance` (src/digest/database.go:467): the fetched per-currency
records together with the final `(lastHeight, previousHeight)` pair,
both starting from `NilHeight`. -/
def balance (coll : List BRec) (a : String) : List BRec × Int × Int :=
  let chosen := balanceLoop coll a []
  (chosen, chosen.foldl lastPrevStep (NilHeight, NilHeight))

/-- The `AccountValue` assembled by `Account`: the account record plus
the balance-derived amounts and heights
(`SetBalance`/`SetHeight`/`SetPreviousHeight`). -/
structure AccountValue where
  ac : ARec
  balance : List BRec
  height : Int
  previousHeight : Int
  deriving DecidableEq, Repr

/-- `Account` (src/digest/database.go:431): fetch the account record by
address (FindOne, sort height desc); `NotFoundError` yields
(found=false, err=nil), modelled as `none`; otherwise the balances,
height and previousHeight of the result are overwritten from `balance`.
Storage and decode failures are outside the model, so the Go error
result is always nil here. -/
def Account (acColl : List ARec) (blColl : List BRec) (a : String) :
    Option AccountValue :=
  match findOneMaxHeight ARec.height (fun r => decide (r.address = a)) acColl with
  | none => none
  | some rs =>
    let b := balance blColl a
    some { ac := rs, balance := b.1, height := b.2.1, previousHeight := b.2.2 }

theorem findMaxAux_ne_none_of_mem {α : Type} (height : α → Int) (p : α → Bool) :
    ∀ (coll : List α) (acc : Option α) (b : α), b ∈ coll → p b = true →
      findMaxAux height p acc coll ≠ none := by
  intro coll
  induction coll with
  | nil => intro acc b hb; cases hb
  | cons x rest ih =>
    intro acc b hb hp
    rcases acc with _ | y
    · rw [findMaxAux]
      split_ifs with hx
      · exact findMaxAux_ne_none height p rest x
      · rcases List.mem_cons.mp hb with rfl | hmem
        · exact absurd hp hx
        · exact ih none b hmem hp
    · rw [findMaxAux]
      split_ifs with hx hlt
      · exact findMaxAux_ne_none height p rest x
      · exact findMaxAux_ne_none height p rest y
      · exact findMaxAux_ne_none height p rest y

theorem balanceLoop_spec (coll : List BRec) (a : String) :
    ∀ (n : Nat) (cids : List String),
      (coll.filter (balanceFilter a cids)).length ≤ n →
      (∀ r ∈ balanceLoop coll a cids,
        r ∈ coll ∧ r.address = a ∧ r.currency ∉ cids ∧
        ∀ b ∈ coll, b.address = a → b.currency = r.currency →
          b.height ≤ r.height) ∧
      (∀ c : String, c ∉ cids →
        (∃ b ∈ coll, b.address = a ∧ b.currency = c) →
        ∃ r ∈ balanceLoop coll a cids, r.currency = c) ∧
      ((balanceLoop coll a cids).map BRec.currency).Nodup := by
  intro n
  induction n with
  | zero =>
    intro cids hlen
    have hall : ∀ b ∈ coll, balanceFilter a cids b = false := by
      intro b hb
      by_contra hcon
      have hb2 : b ∈ coll.filter (balanceFilter a cids) :=
        List.mem_filter.mpr ⟨hb, by revert hcon; cases balanceFilter a cids b <;> simp⟩
      have hpos : 0 < (coll.filter (balanceFilter a cids)).length :=
        List.length_pos.mpr (List.ne_nil_of_mem hb2)
      omega
    have hnone : findOneMaxHeight BRec.height (balanceFilter a cids) coll = none :=
      findMaxAux_of_all_false _ _ coll none hall
    have hloop : balanceLoop coll a cids = [] := by rw [balanceLoop, hnone]
    refine ⟨?_, ?_, ?_⟩
    · intro r hr; rw [hloop] at hr; cases hr
    · rintro c hc ⟨b, hb, hba, hbc⟩
      have := hall b hb
      simp only [balanceFilter, hba, hbc, decide_eq_true_eq, decide_True,
        Bool.true_and, Bool.not_eq_false', decide_eq_true_eq] at this
      exact absurd this hc
    · rw [hloop]; exact List.nodup_nil
  | succ n ihn =>
    intro cids hlen
    cases hfind : findOneMaxHeight BRec.height (balanceFilter a cids) coll with
    | none =>
      have hloop : balanceLoop coll a cids = [] := by rw [balanceLoop, hfind]
      refine ⟨?_, ?_, ?_⟩
      · intro r hr; rw [hloop] at hr; cases hr
      · rintro c hc ⟨b, hb, hba, hbc⟩
        have hpb : balanceFilter a cids b = true := by
          simp only [balanceFilter, Bool.and_eq_true, decide_eq_true_eq,
            Bool.not_eq_true', decide_eq_false_iff_not]
          exact ⟨hba, hbc ▸ hc⟩
        exact absurd hfind (findMaxAux_ne_none_of_mem BRec.height _ coll none b hb hpb)
      · rw [hloop]; exact List.nodup_nil
    | some r =>
      have hloop : balanceLoop coll a cids
          = r :: balanceLoop coll a (cids ++ [r.currency]) := by
        rw [balanceLoop, hfind]
      rcases findMaxAux_mem BRec.height (balanceFilter a cids) coll none r hfind with
        h0 | ⟨hmem, hp⟩
      · cases h0
      have hp2 : r.address = a ∧ r.currency ∉ cids := by
        simpa only [balanceFilter, Bool.and_eq_true, decide_eq_true_eq,
          Bool.not_eq_true', decide_eq_false_iff_not] using hp
      have hmax := (findMaxAux_max BRec.height (balanceFilter a cids) coll none r hfind).2
      have hdec := balanceLoop_measure coll a cids r hfind
      have IH := ihn (cids ++ [r.currency]) (by omega)
      refine ⟨?_, ?_, ?_⟩
      · intro x hx
        rw [hloop] at hx
        rcases List.mem_cons.mp hx with rfl | hxrest
        · refine ⟨hmem, hp2.1, hp2.2, ?_⟩
          intro b hb hba hbc
          refine hmax b hb ?_
          simp only [balanceFilter, Bool.and_eq_true, decide_eq_true_eq,
            Bool.not_eq_true', decide_eq_false_iff_not]
          exact ⟨hba, hbc ▸ hp2.2⟩
        · obtain ⟨hxcoll, hxa, hxnc, hxmax⟩ := IH.1 x hxrest
          refine ⟨hxcoll, hxa, ?_, hxmax⟩
          intro hxc
          exact hxnc (List.mem_append.mpr (Or.inl hxc))
      · intro c hc hex
        by_cases hcr : c = r.currency
        · exact ⟨r, by rw [hloop]; exact List.mem_cons_self r _, hcr.symm⟩
        · obtain ⟨x, hxrest, hxc⟩ := IH.2.1 c
            (by
              intro hmemc
              rcases List.mem_append.mp hmemc with h1 | h2
              · exact hc h1
              · exact hcr (List.mem_singleton.mp h2)) hex
          exact ⟨x, by rw [hloop]; exact List.mem_cons_of_mem r hxrest, hxc⟩
      · rw [hloop]
        simp only [List.map_cons, List.nodup_cons]
        refine ⟨?_, IH.2.2⟩
        intro hmemmap
        obtain ⟨x, hxrest, hxc⟩ := List.mem_map.mp hmemmap
        have hxnc := (IH.1 x hxrest).2.2.1
        exact hxnc (List.mem_append.mpr (Or.inr (by rw [hxc]; exact List.mem_singleton_self _)))

theorem foldl_lastPrevStep_cases :
    ∀ (l : List BRec) (acc : Int × Int),
      (l.foldl lastPrevStep acc = acc ∧ ∀ b ∈ l, b.height ≤ acc.1) ∨
      (∃ b ∈ l, l.foldl lastPrevStep acc = (b.height, b.previousHeight) ∧
        acc.1 < b.height ∧ ∀ b2 ∈ l, b2.height ≤ b.height) := by
  intro l
  induction l with
  | nil => intro acc; left; exact ⟨rfl, by simp⟩
  | cons r rest ih =>
    intro acc
    rw [List.foldl_cons]
    by_cases hr : acc.1 < r.height
    · rw [show lastPrevStep acc r = (r.height, r.previousHeight) by
        rw [lastPrevStep, if_pos hr]]
      rcases ih (r.height, r.previousHeight) with ⟨heq, hall⟩ | ⟨b, hb, heq, hlt, hall⟩
      · right
        refine ⟨r, List.mem_cons_self r rest, heq, hr, ?_⟩
        intro b2 hb2
        rcases List.mem_cons.mp hb2 with rfl | hmem
        · exact le_rfl
        · exact hall b2 hmem
      · right
        refine ⟨b, List.mem_cons_of_mem r hb, heq, lt_trans hr hlt, ?_⟩
        intro b2 hb2
        rcases List.mem_cons.mp hb2 with rfl | hmem
        · exact le_of_lt hlt
        · exact hall b2 hmem
    · rw [show lastPrevStep acc r = acc by rw [lastPrevStep, if_neg hr]]
      rcases ih acc with ⟨heq, hall⟩ | ⟨b, hb, heq, hlt, hall⟩
      · left
        refine ⟨heq, ?_⟩
        intro b2 hb2
        rcases List.mem_cons.mp hb2 with rfl | hmem
        · exact not_lt.mp hr
        · exact hall b2 hmem
      · right
        refine ⟨b, List.mem_cons_of_mem r hb, heq, hlt, ?_⟩
        intro b2 hb2
        rcases List.mem_cons.mp hb2 with rfl | hmem
        · exact le_trans (not_lt.mp hr) (le_of_lt hlt)
        · exact hall b2 hmem

theorem lastPrev_mem (l : List BRec) (hne : l ≠ [])
    (hwf : ∀ b ∈ l, NilHeight < b.height) :
    ∃ b ∈ l, l.foldl lastPrevStep (NilHeight, NilHeight)
        = (b.height, b.previousHeight) ∧
      ∀ b2 ∈ l, b2.height ≤ b.height := by
  rcases foldl_lastPrevStep_cases l (NilHeight, NilHeight) with
    ⟨heq, hall⟩ | ⟨b, hb, heq, hlt, hall⟩
  · obtain ⟨x, hx⟩ := List.exists_mem_of_ne_nil l hne
    exact absurd (hall x hx) (not_le.mpr (hwf x hx))
  · exact ⟨b, hb, heq, hall⟩

/-- C9: when `Account` finds an account record it reports it as found
with a nil error, and the balance list, height and previous height of
the returned value come from the per-currency most recent balance
records of the address — not from the account record; when no balance
record exists for the address, the balance list is empty and both
heights are `NilHeight`, still with found = true and no error.
(Well-formedness: every stored balance record sits at a real block
height above `NilHeight`.) -/
theorem account_found_semantics (acColl : List ARec) (blColl : List BRec)
    (a : String) (rs : ARec)
    (hwf : ∀ b ∈ blColl, NilHeight < b.height)
    (hacc : findOneMaxHeight ARec.height (fun r => decide (r.address = a)) acColl
      = some rs) :
    ∃ av : AccountValue, Account acColl blColl a = some av ∧ av.ac = rs ∧
      (∀ b ∈ av.balance, b ∈ blColl ∧ b.address = a ∧
        ∀ b2 ∈ blColl, b2.address = a → b2.currency = b.currency →
          b2.height ≤ b.height) ∧
      (∀ c : String, (∃ b ∈ blColl, b.address = a ∧ b.currency = c) →
        ∃ b ∈ av.balance, b.currency = c) ∧
      (av.balance.map BRec.currency).Nodup ∧
      (av.balance = [] → av.height = NilHeight ∧ av.previousHeight = NilHeight) ∧
      (av.balance ≠ [] → ∃ b ∈ av.balance, av.height = b.height ∧
        av.previousHeight = b.previousHeight ∧
        ∀ b2 ∈ av.balance, b2.height ≤ b.height) ∧
      ((∀ b ∈ blColl, b.address ≠ a) → av.balance = []) := by
  have hAcc : Account acColl blColl a = some ⟨rs, (balance blColl a).1,
      (balance blColl a).2.1, (balance blColl a).2.2⟩ := by
    rw [Account, hacc]
  have hbal1 : (balance blColl a).1 = balanceLoop blColl a [] := rfl
  have hbal2 : (balance blColl a).2
      = ((balanceLoop blColl a []).foldl lastPrevStep (NilHeight, NilHeight)) := rfl
  have spec := balanceLoop_spec blColl a
    ((blColl.filter (balanceFilter a [])).length) [] le_rfl
  refine ⟨_, hAcc, rfl, ?_, ?_, ?_, ?_, ?_, ?_⟩
  · intro b hb
    rw [hbal1] at hb
    obtain ⟨hmem, hba, -, hmax⟩ := spec.1 b hb
    exact ⟨hmem, hba, hmax⟩
  · intro c hex
    rw [hbal1]
    exact spec.2.1 c (List.not_mem_nil c) hex
  · rw [hbal1]
    exact spec.2.2
  · intro hempty
    have hempty2 : balanceLoop blColl a [] = [] := hempty
    show ((balanceLoop blColl a []).foldl lastPrevStep (NilHeight, NilHeight)).1
        = NilHeight ∧
      ((balanceLoop blColl a []).foldl lastPrevStep (NilHeight, NilHeight)).2
        = NilHeight
    rw [hempty2]
    exact ⟨rfl, rfl⟩
  · intro hne
    rw [hbal1] at hne
    have hwf2 : ∀ b ∈ balanceLoop blColl a [], NilHeight < b.height :=
      fun b hb => hwf b (spec.1 b hb).1
    obtain ⟨b, hb, heq, hmax⟩ := lastPrev_mem (balanceLoop blColl a []) hne hwf2
    refine ⟨b, by rw [hbal1]; exact hb, ?_, ?_, ?_⟩
    · show (balance blColl a).2.1 = b.height
      rw [hbal2, heq]
    · show (balance blColl a).2.2 = b.previousHeight
      rw [hbal2, heq]
    · intro b2 hb2
      rw [hbal1] at hb2
      exact hmax b2 hb2
  · intro hno
    have hall : ∀ b ∈ blColl, balanceFilter a [] b = false := by
      intro b hb
      simp [balanceFilter, hno b hb]
    show balanceLoop blColl a [] = []
    have hnone : findOneMaxHeight BRec.height (balanceFilter a []) blColl = none :=
      findMaxAux_of_all_false _ _ blColl none hall
    rw [balanceLoop, hnone]

/-- Witness for C9 at a concrete three-record balance collection. -/
theorem account_found_semantics_witness :
    ∃ av : AccountValue,
      Account [(⟨"a", 0, 0⟩ : ARec)]
        [⟨"a", "X", 0, -1, 5⟩, ⟨"a", "X", 2, 1, 7⟩, ⟨"a", "Y", 1, 0, 3⟩] "a"
        = some av ∧ av.ac = (⟨"a", 0, 0⟩ : ARec) ∧
      (∀ b ∈ av.balance,
        b ∈ [(⟨"a", "X", 0, -1, 5⟩ : BRec), ⟨"a", "X", 2, 1, 7⟩, ⟨"a", "Y", 1, 0, 3⟩] ∧
        b.address = "a" ∧
        ∀ b2 ∈ [(⟨"a", "X", 0, -1, 5⟩ : BRec), ⟨"a", "X", 2, 1, 7⟩, ⟨"a", "Y", 1, 0, 3⟩],
          b2.address = "a" → b2.currency = b.currency → b2.height ≤ b.height) ∧
      (∀ c : String,
        (∃ b ∈ [(⟨"a", "X", 0, -1, 5⟩ : BRec), ⟨"a", "X", 2, 1, 7⟩, ⟨"a", "Y", 1, 0, 3⟩],
          b.address = "a" ∧ b.currency = c) →
        ∃ b ∈ av.balance, b.currency = c) ∧
      (av.balance.map BRec.currency).Nodup ∧
      (av.balance = [] → av.height = NilHeight ∧ av.previousHeight = NilHeight) ∧
      (av.balance ≠ [] → ∃ b ∈ av.balance, av.height = b.height ∧
        av.previousHeight = b.previousHeight ∧
        ∀ b2 ∈ av.balance, b2.height ≤ b.height) ∧
      ((∀ b ∈ [(⟨"a", "X", 0, -1, 5⟩ : BRec), ⟨"a", "X", 2, 1, 7⟩, ⟨"a", "Y", 1, 0, 3⟩],
          b.address ≠ "a") → av.balance = []) :=
  account_found_semantics [(⟨"a", 0, 0⟩ : ARec)]
    [⟨"a", "X", 0, -1, 5⟩, ⟨"a", "X", 2, 1, 7⟩, ⟨"a", "Y", 1, 0, 3⟩] "a"
    ⟨"a", 0, 0⟩ (by decide) (by decide)

end Blocksign
